import Mathlib

/-!
Verification development for the phonon Fourier interpolation core of the
repository (src/casteppy/data/interpolation.py).  The Python code is shallowly
embedded: numpy float arithmetic is modelled by exact rationals (for the
geometric image search) and by real/complex numbers (for phases and the
dynamical matrix); numpy reshape failures and LinAlgError are modelled with
Except/Option.  Vectors and matrices are total functions on ℕ indices (numpy
arrays of shape (3,) and (3,3) only ever read indices 0,1,2).  Names follow
the source where Lean allows it.
-/

namespace Interp

/-- 3-component vectors (numpy arrays of shape (3,)); only indices 0,1,2 are read. -/
abbrev Vec3 (α : Type) := ℕ → α

/-- 3×3 matrices (numpy arrays of shape (3,3)); only indices 0,1,2 are read. -/
abbrev Mat3 (α : Type) := ℕ → ℕ → α

/-- Dot product of two 3-vectors (np.dot on vectors of length 3). -/
def dot3 (a b : Vec3 ℚ) : ℚ := a 0 * b 0 + a 1 * b 1 + a 2 * b 2

/-- Row vector times matrix (np.matmul with a length-3 row on the left). -/
def vecMul3 (v : Vec3 ℚ) (M : Mat3 ℚ) : Vec3 ℚ :=
  fun j => v 0 * M 0 j + v 1 * M 1 j + v 2 * M 2 j

/-- Matrix times column vector over ℤ (np.dot(matrix, vector)). -/
def matVec3 (M : Mat3 ℤ) (v : Vec3 ℤ) : Vec3 ℤ :=
  fun i => M i 0 * v 0 + M i 1 * v 1 + M i 2 * v 2

/-- Matrix product of two 3×3 matrices (np.matmul). -/
def mul3 (A B : Mat3 ℚ) : Mat3 ℚ :=
  fun i j => A i 0 * B 0 j + A i 1 * B 1 j + A i 2 * B 2 j

/-- Transpose of a 3×3 matrix (np.transpose). -/
def transpose3 (M : Mat3 α) : Mat3 α := fun i j => M j i

/-- Determinant of a rational 3×3 matrix (exact value of np.linalg.det). -/
def det3 (M : Mat3 ℚ) : ℚ :=
  M 0 0 * (M 1 1 * M 2 2 - M 1 2 * M 2 1)
    - M 0 1 * (M 1 0 * M 2 2 - M 1 2 * M 2 0)
    + M 0 2 * (M 1 0 * M 2 1 - M 1 1 * M 2 0)

/-- Determinant of an integer 3×3 matrix. -/
def det3Int (M : Mat3 ℤ) : ℤ :=
  M 0 0 * (M 1 1 * M 2 2 - M 1 2 * M 2 1)
    - M 0 1 * (M 1 0 * M 2 2 - M 1 2 * M 2 0)
    + M 0 2 * (M 1 0 * M 2 1 - M 1 1 * M 2 0)

/-- Entry-wise cast of an integer matrix to a rational one. -/
def castM (M : Mat3 ℤ) : Mat3 ℚ := fun i j => (M i j : ℚ)

/-- Entry-wise cast of an integer vector to a rational one. -/
def castV (v : Vec3 ℤ) : Vec3 ℚ := fun i => (v i : ℚ)

/-- Adjugate of a 3×3 matrix (entries outside 0..2 are irrelevant and set to 0). -/
def adj3 (M : Mat3 ℚ) : Mat3 ℚ := fun i j =>
  match i, j with
  | 0, 0 => M 1 1 * M 2 2 - M 1 2 * M 2 1
  | 0, 1 => M 0 2 * M 2 1 - M 0 1 * M 2 2
  | 0, 2 => M 0 1 * M 1 2 - M 0 2 * M 1 1
  | 1, 0 => M 1 2 * M 2 0 - M 1 0 * M 2 2
  | 1, 1 => M 0 0 * M 2 2 - M 0 2 * M 2 0
  | 1, 2 => M 0 2 * M 1 0 - M 0 0 * M 1 2
  | 2, 0 => M 1 0 * M 2 1 - M 1 1 * M 2 0
  | 2, 1 => M 0 1 * M 2 0 - M 0 0 * M 2 1
  | 2, 2 => M 0 0 * M 1 1 - M 0 1 * M 1 0
  | _, _ => 0

/-- Exact inverse of a 3×3 rational matrix, adjugate over determinant (the
exact value that np.linalg.inv approximates in floating point). -/
def inv3 (M : Mat3 ℚ) : Mat3 ℚ := fun i j => adj3 M i j / det3 M

/-- Build a concrete 3-vector. -/
def v3 (a b c : α) : Vec3 α := fun n => if n = 0 then a else if n = 1 then b else c

/-- Build a concrete 3×3 matrix from rows. -/
def m3 (r0 r1 r2 : Vec3 α) : Mat3 α := fun i => if i = 0 then r0 else if i = 1 then r1 else r2

/-! ### Supercell image offsets (_calculate_supercell_image_r) -/

/-- Integer triplets, used for rows of the sc_image_r array. -/
abbrev Tri := ℤ × ℤ × ℤ

/-- View an integer triplet as a rational 3-vector. -/
def triQ (t : Tri) : Vec3 ℚ := fun n => if n = 0 then (t.1 : ℚ) else if n = 1 then (t.2.1 : ℚ) else (t.2.2 : ℚ)

/-- View an integer triplet as an integer 3-vector. -/
def triZ (t : Tri) : Vec3 ℤ := fun n => if n = 0 then t.1 else if n = 1 then t.2.1 else t.2.2

/-- np.repeat(l, m): every element repeated m times consecutively. -/
def repList (l : List ℤ) (m : ℕ) : List ℤ := l.flatMap (List.replicate m)

/-- np.tile(l, m): the whole list repeated m times. -/
def tileList (l : List ℤ) (m : ℕ) : List ℤ := (List.replicate m l).flatten

/-- range(-lim, lim + 1) from _calculate_supercell_image_r. -/
def irangeL (lim : ℕ) : List ℤ :=
  (List.range (2 * lim + 1)).map (fun t : ℕ => (t : ℤ) - (lim : ℤ))

/-- All supercell image integer offsets, exactly as built by
_calculate_supercell_image_r: scx = repeat(irange, inum²),
scy = tile(repeat(irange, inum), inum), scz = tile(irange, inum²),
column-stacked into (2·lim+1)³ integer triplets. -/
def scImageR (lim : ℕ) : List Tri :=
  let inum := 2 * lim + 1
  let scx := repList (irangeL lim) (inum ^ 2)
  let scy := tileList (repList (irangeL lim) inum) inum
  let scz := tileList (irangeL lim) (inum ^ 2)
  ((scx.zip scy).zip scz).map (fun p => (p.1.1, p.1.2, p.2))

/-- Row k of the offsets table (sc_image_r[k, :]). -/
def offsets (lim k : ℕ) : Tri := (scImageR lim).getD k (0, 0, 0)

/-- The spec's description of the offset list: all integer triplets over the
box [-lim, lim]³ in row-major lexical order (to be compared with scImageR). -/
def lexTriples (lim : ℕ) : List Tri :=
  (irangeL lim).flatMap (fun a =>
    (irangeL lim).flatMap (fun b =>
      (irangeL lim).map (fun c => (a, b, c))))

/-! ### Geometry data and the Wigner-Seitz image search
(_calculate_supercell_images) -/

/-- The geometric attributes of InterpolationData used by the interpolation
pipeline (values the code reads from the .castep_bin file; units stripped:
cell_vec is in bohr as used in _calculate_supercell_images). -/
structure Geometry where
  n_ions : ℕ
  n_cells_in_sc : ℕ
  cell_vec : Mat3 ℚ
  sc_matrix : Mat3 ℤ
  ion_r : ℕ → Vec3 ℚ
  cell_origins : ℕ → Vec3 ℤ
  ion_mass : ℕ → ℚ

/-- The 14 fractional points defining the Wigner-Seitz cell (ws_frac). -/
def wsFrac : ℕ → Vec3 ℚ := fun m =>
  match m with
  | 0 => v3 0 0 0
  | 1 => v3 0 0 1
  | 2 => v3 0 1 0
  | 3 => v3 0 1 1
  | 4 => v3 0 1 (-1)
  | 5 => v3 1 0 0
  | 6 => v3 1 0 1
  | 7 => v3 1 0 (-1)
  | 8 => v3 1 1 0
  | 9 => v3 1 1 1
  | 10 => v3 1 1 (-1)
  | 11 => v3 1 (-1) 0
  | 12 => v3 1 (-1) 1
  | _ => v3 1 (-1) (-1)

/-- cutoff_scale = 1.0 in _calculate_supercell_images. -/
def cutoffScale : ℚ := 1

/-- sc_vecs = np.matmul(sc_matrix, cell_vec). -/
def scVecs (g : Geometry) : Mat3 ℚ := mul3 (castM g.sc_matrix) g.cell_vec

/-- Row m of ws_list = np.matmul(ws_frac, sc_vecs); the code uses rows 1..13
(ws_list[1:]). -/
def wsList (g : Geometry) (m : ℕ) : Vec3 ℚ := vecMul3 (wsFrac m) (scVecs g)

/-- inv_ws_sq = 1 / sum(square(ws_list[1:]), axis=1); entry m corresponds to
ws_list[1 + m]. -/
def invWsSq (g : Geometry) (m : ℕ) : ℚ := 1 / dot3 (wsList g (m + 1)) (wsList g (m + 1))

/-- sc_image_cart[k] = row k of np.matmul(sc_image_r, np.transpose(sc_vecs)).
Note the transpose: the code multiplies the offsets by sc_vecsᵀ here, unlike
every other position computation in the same function. -/
def scImageCart (g : Geometry) (lim k : ℕ) : Vec3 ℚ :=
  vecMul3 (triQ (offsets lim k)) (transpose3 (scVecs g))

/-- Row J of sc_ion_r = np.matmul(tile(ion_r) + repeat(cell_origins),
np.linalg.inv(sc_matrix)): supercell atom J is ion J % n_ions in the cell with
origin cell_origins[J / n_ions]. -/
def scIonR (g : Geometry) (J : ℕ) : Vec3 ℚ :=
  vecMul3 (fun a => g.ion_r (J % g.n_ions) a + (g.cell_origins (J / g.n_ions) a : ℚ))
    (inv3 (castM g.sc_matrix))

/-- sc_ion_cart[J] = np.matmul(sc_ion_r[J], sc_vecs). -/
def scIonCart (g : Geometry) (J : ℕ) : Vec3 ℚ := vecMul3 (scIonR g J) (scVecs g)

/-- dist[k] = sc_ion_cart[i] - sc_ion_cart[j] - sc_image_cart[k]. -/
def distV (g : Geometry) (lim i J k : ℕ) : Vec3 ℚ :=
  fun a => scIonCart g i a - scIonCart g J a - scImageCart g lim k a

/-- The 13 entries of dist_ws_point =
np.absolute(np.dot(ws_list[1:], dist[k]) * inv_ws_sq). -/
def wsVals (g : Geometry) (lim i J k : ℕ) : List ℚ :=
  (List.range 13).map (fun m => |dot3 (wsList g (m + 1)) (distV g lim i J k) * invWsSq g m|)

/-- np.max of a list of values; every entry of dist_ws_point is nonnegative
(an absolute value times a nonnegative reciprocal), so folding max with
initial value 0 agrees with numpy's maximum of the nonempty vector. -/
def npMax (l : List ℚ) : ℚ := l.foldr max 0

/-- The image acceptance test from _calculate_supercell_images:
np.max(dist_ws_point) <= 0.5 * cutoff_scale + 0.001 (float constants are
modelled by the exact decimal rationals). -/
def codeSel (g : Geometry) (lim i J k : ℕ) : Prop :=
  npMax (wsVals g lim i J k) ≤ 1 / 2 * cutoffScale + 1 / 1000

instance (g : Geometry) (lim i J k : ℕ) : Decidable (codeSel g lim i J k) := by
  unfold codeSel; infer_instance

/-- sc_image_i[i, J, ·]: the accepted image indices k, appended in loop order;
the filter over range((2·lim+1)³) reproduces the append-and-count loop. -/
def imageIndices (g : Geometry) (lim i J : ℕ) : List ℕ :=
  (List.range ((2 * lim + 1) ^ 3)).filter (fun k => decide (codeSel g lim i J k))

/-- n_sc_images[i, J]: the number of accepted images. -/
def countsOf (g : Geometry) (lim i J : ℕ) : ℕ := (imageIndices g lim i J).length

/-! ### Phase table (calculate_fine_phonons, lines 289-298) -/

/-- cell_r = np.dot(np.transpose(sc_matrix), sc_image_r[k]) + cell_origins[nc]. -/
def cellR (g : Geometry) (lim nc k : ℕ) : Vec3 ℤ :=
  fun a => matVec3 (transpose3 g.sc_matrix) (triZ (offsets lim k)) a + g.cell_origins nc a

/-- np.dot(qpt, cell_r) for a real q-point and an integer cell vector. -/
def qdot (q : Vec3 ℝ) (v : Vec3 ℤ) : ℝ := q 0 * (v 0 : ℝ) + q 1 * (v 1 : ℝ) + q 2 * (v 2 : ℝ)

/-- phases[nc, k] = complex(cos(2π q·cell_r), sin(2π q·cell_r)) exactly as in
the phase-lookup loop of calculate_fine_phonons. -/
noncomputable def phasesFor (g : Geometry) (lim : ℕ) (q : Vec3 ℝ) (nc k : ℕ) : ℂ :=
  ((Real.cos (2 * Real.pi * qdot q (cellR g lim nc k)) : ℝ) : ℂ)
    + ((Real.sin (2 * Real.pi * qdot q (cellR g lim nc k)) : ℝ) : ℂ) * Complex.I

/-! ### Dynamical matrix assembly (calculate_fine_phonons, lines 300-308) -/

/-- One iteration of the inner accumulation loop: for the pair (i, scj) with
j = scj % n_ions and nc = scj / n_ions, add
term · force_constants[nc, 3i:3i+3, 3j:3j+3] / n_sc_images[i, scj] into the
(i, j) block of the dynamical matrix, where term is the phase sum over the
stored image indices.  (Division by a zero count, which the enumeration is
documented never to produce, is the zero of ℂ in this model where numpy would
emit nan: in that case term is also an empty sum, so the contribution is 0
either way.) -/
noncomputable def dynStep (n : ℕ) (fc : ℕ → ℕ → ℕ → ℚ) (ph : ℕ → ℕ → ℂ) (tbl : ℕ → ℕ → List ℕ)
    (i scj : ℕ) (D : ℕ → ℕ → ℂ) : ℕ → ℕ → ℂ :=
  fun r c =>
    if 3 * i ≤ r ∧ r < 3 * i + 3 ∧ 3 * (scj % n) ≤ c ∧ c < 3 * (scj % n) + 3 then
      D r c + ((tbl i scj).map (ph (scj / n))).sum * (fc (scj / n) r c : ℂ)
        / ((tbl i scj).length : ℂ)
    else D r c

/-- The assembled dynamical matrix: dyn_mat starts at zero and the double loop
over i in range(n_ions) and scj in range(n_ions·n_cells_in_sc) accumulates
block contributions. -/
noncomputable def assembleD (n ncl : ℕ) (fc : ℕ → ℕ → ℕ → ℚ) (ph : ℕ → ℕ → ℂ)
    (tbl : ℕ → ℕ → List ℕ) : ℕ → ℕ → ℂ :=
  (List.range n).foldl
    (fun D i => (List.range (n * ncl)).foldl (fun D scj => dynStep n fc ph tbl i scj D) D)
    (fun _ _ => 0)

/-- The amount contributed at entry (r, c) by the inner-loop iteration scj of
the outer iteration i. -/
noncomputable def contrib (n : ℕ) (fc : ℕ → ℕ → ℕ → ℚ) (ph : ℕ → ℕ → ℂ) (tbl : ℕ → ℕ → List ℕ)
    (i scj r c : ℕ) : ℂ :=
  if 3 * i ≤ r ∧ r < 3 * i + 3 ∧ 3 * (scj % n) ≤ c ∧ c < 3 * (scj % n) + 3 then
    ((tbl i scj).map (ph (scj / n))).sum * (fc (scj / n) r c : ℂ) / ((tbl i scj).length : ℂ)
  else 0

/-! ### The q-point evaluation pipeline (calculate_fine_phonons) -/

/-- The dynamical matrix handed to np.linalg.eigh for a q-point: the assembled
matrix itself, using the cached image table; lim = 2 is hard-coded in
calculate_fine_phonons.  No mass weighting and no Hermitian symmetrization is
applied between assembly and diagonalization. -/
noncomputable def dynMatPassed (g : Geometry) (fc : ℕ → ℕ → ℕ → ℚ)
    (tbl : ℕ → ℕ → List ℕ) (q : Vec3 ℝ) : ℕ → ℕ → ℂ :=
  assembleD g.n_ions g.n_cells_in_sc fc (phasesFor g 2 q) tbl

/-- Output of np.linalg.eigh: eigenvalues (real) and the eigenvector matrix. -/
structure SolverResult where
  evals : ℕ → ℝ
  evecs : ℕ → ℕ → ℂ

/-- np.linalg.LinAlgError raised by np.linalg.eigh when diagonalization does
not converge. -/
inductive SolverErr where
  | linAlgError
  deriving DecidableEq

/-- A Hermitian eigensolver: an external collaborator (numpy), modelled as an
arbitrary function that may fail. -/
def Solver : Type := (ℕ → ℕ → ℂ) → Except SolverErr SolverResult

/-- np.sqrt on a float: NaN (modelled as none) for negative input. -/
noncomputable def npSqrt (x : ℝ) : Option ℝ :=
  if 0 ≤ x then some (Real.sqrt x) else none

/-- The signed square root sign(λ)·sqrt(|λ|) that the spec requires for
frequencies (spec §4.E). -/
noncomputable def specFreq (x : ℝ) : ℝ := Real.sign x * Real.sqrt |x|

/-- Results stored for one q-point: freqs[q, :] = np.sqrt(evals) and
eigenvecs[q] = np.reshape(evecs, (n_branches, n_ions, 3)), i.e.
entry (branch, ion, a) = evecs[branch, 3·ion + a]. -/
structure QPointResult where
  freqs : ℕ → Option ℝ
  evecs : ℕ → ℕ → ℕ → ℂ

/-- The per-q-point loop of calculate_fine_phonons: for each q in order,
assemble the dynamical matrix, diagonalize, and record np.sqrt(evals) and the
reshaped eigenvectors; a LinAlgError at any q-point aborts the whole loop
(the local freqs/eigenvecs arrays are discarded). -/
noncomputable def computeAll (solver : Solver) (g : Geometry) (fc : ℕ → ℕ → ℕ → ℚ)
    (tbl : ℕ → ℕ → List ℕ) : List (Vec3 ℝ) → Except SolverErr (List QPointResult)
  | [] => .ok []
  | q :: rest =>
    match solver (dynMatPassed g fc tbl q) with
    | .error e => .error e
    | .ok r =>
      match computeAll solver g fc tbl rest with
      | .error e => .error e
      | .ok rs =>
        .ok ({ freqs := fun b => npSqrt (r.evals b),
               evecs := fun b l a => r.evecs b (3 * l + a) } :: rs)

/-- The mutable attributes of an InterpolationData object touched by
calculate_fine_phonons: the stored results (qpts, n_qpts, freqs, eigenvecs)
and the lazily-cached image table (sc_image_i / n_sc_images). -/
structure PhononObj where
  qpts : List (Vec3 ℝ)
  n_qpts : ℕ
  freqs : ℕ → ℕ → Option ℝ
  eigenvecs : ℕ → ℕ → ℕ → ℕ → ℂ
  sc_images : Option (ℕ → ℕ → List ℕ)

/-- The hasattr(self, 'sc_image_i') check at the top of calculate_fine_phonons:
if the image table has not been computed yet, compute and store it (an
attribute mutation that happens before the q-point loop). -/
def ensureImages (g : Geometry) (obj : PhononObj) : PhononObj :=
  match obj.sc_images with
  | none => { obj with sc_images := some (imageIndices g 2) }
  | some _ => obj

/-- calculate_fine_phonons as a state transformer.  Statement order follows
the source: the image-table cache is written first (hasattr check); the q-point
loop then either fails, leaving the object as it stands (the numpy exception
propagates before lines 314-317 run), or succeeds, and only then are
qpts/n_qpts/freqs/eigenvecs assigned.  The second component is the raised
error, if any. -/
noncomputable def runCalc (solver : Solver) (g : Geometry) (fc : ℕ → ℕ → ℕ → ℚ)
    (obj : PhononObj) (qpts : List (Vec3 ℝ)) : PhononObj × Option SolverErr :=
  match computeAll solver g fc
      ((ensureImages g obj).sc_images.getD (imageIndices g 2)) qpts with
  | .error e => (ensureImages g obj, some e)
  | .ok rs =>
    ({ ensureImages g obj with
        qpts := qpts
        n_qpts := qpts.length
        freqs := fun qq b => match rs.get? qq with
          | some r => r.freqs b
          | none => none
        eigenvecs := fun qq b l a => match rs.get? qq with
          | some r => r.evecs b l a
          | none => 0 }, none)

/-! ### Constructor model (_read_interpolation_data / __init__) -/

/-- The raw FORCE_CON-era record contents handed to the constructor, after
file decoding (flat arrays exactly as read; the per-species expansion of
masses is already applied, as it involves no checks). -/
structure RawData where
  n_ions : ℕ
  cell_vec : Mat3 ℚ
  ion_mass : List ℚ
  sc_matrix : Mat3 ℤ
  fc_data : List ℚ
  origins_data : List ℤ

/-- The only failure the constructor can surface: np.reshape raises an
unstructured ValueError when the element count does not match the requested
shape.  The code defines no GeometryInvalid-style structured error. -/
inductive ReadError where
  | reshapeMismatch
  deriving DecidableEq

/-- The attribute record built by _read_interpolation_data. -/
structure Attrs where
  n_ions : ℕ
  n_cells_in_sc : ℕ
  cell_vec : Mat3 ℚ
  ion_mass : List ℚ
  sc_matrix : Mat3 ℤ
  force_constants : ℕ → ℕ → ℕ → ℚ
  cell_origins : ℕ → Vec3 ℤ

/-- The constructor pipeline of _read_interpolation_data for the FORCE_CON
block: n_cells_in_sc = int(abs(det(sc_matrix))), then reshape of the force
constants to (n_cells_in_sc, 3·n_ions, 3·n_ions) and of the cell origins to
(n_cells_in_sc, 3).  There is no validation of the determinant, the masses,
or anything else: the only way construction fails is a reshape size
mismatch. -/
def nCellsOf (d : RawData) : ℕ := (det3Int d.sc_matrix).natAbs

def construct (d : RawData) : Except ReadError Attrs :=
  if d.fc_data.length = nCellsOf d * (3 * d.n_ions) * (3 * d.n_ions) then
    if d.origins_data.length = nCellsOf d * 3 then
      .ok { n_ions := d.n_ions
            n_cells_in_sc := nCellsOf d
            cell_vec := d.cell_vec
            ion_mass := d.ion_mass
            sc_matrix := d.sc_matrix
            force_constants := fun c r s =>
              d.fc_data.getD (c * (3 * d.n_ions) * (3 * d.n_ions) + r * (3 * d.n_ions) + s) 0
            cell_origins := fun c a => d.origins_data.getD (c * 3 + a) 0 }
    else .error .reshapeMismatch
  else .error .reshapeMismatch

/-! ### int8 storage (sc_image_i and n_sc_images use dtype=np.int8) -/

/-- The value actually stored when an integer is written into a numpy int8
array: wrap-around into [-128, 127]. -/
def int8wrap (v : ℤ) : ℤ := (v + 128) % 256 - 128

/-! ### The spec-side statement of the image-selection rule (claim C2) -/

/-- The Cartesian position of supercell atom J as the spec describes it:
(ion_r[J % n_ions] + cell_origins[J / n_ions]) · cell_vec, directly in the
primitive-cell basis (for J = i < n_ions this is atom i in cell 0). -/
def specCart (g : Geometry) (J : ℕ) : Vec3 ℚ :=
  vecMul3 (fun a => g.ion_r (J % g.n_ions) a + (g.cell_origins (J / g.n_ions) a : ℚ)) g.cell_vec

/-- dist(k) = cart(i) - cart(J) - offsets[k] · S, with S = sc_matrix · cell_vec,
exactly as the claim states it (offsets multiplied by S itself). -/
def distSpecS (g : Geometry) (lim i J k : ℕ) : Vec3 ℚ :=
  fun a => specCart g i a - specCart g J a - vecMul3 (triQ (offsets lim k)) (scVecs g) a

/-- dist(k) = cart(i) - cart(J) - offsets[k] · Sᵀ: the same rule with the
transpose the code actually applies. -/
def distSpecT (g : Geometry) (lim i J k : ℕ) : Vec3 ℚ :=
  fun a => specCart g i a - specCart g J a
    - vecMul3 (triQ (offsets lim k)) (transpose3 (scVecs g)) a

/-- The 13 spec-side test values |dist(k)·w| / |w|² for the claimed dist. -/
def specValsS (g : Geometry) (lim i J k : ℕ) : List ℚ :=
  (List.range 13).map (fun m =>
    |dot3 (distSpecS g lim i J k) (wsList g (m + 1))|
      / dot3 (wsList g (m + 1)) (wsList g (m + 1)))

/-- The 13 spec-side test values |dist(k)·w| / |w|² for the transposed dist. -/
def specValsT (g : Geometry) (lim i J k : ℕ) : List ℚ :=
  (List.range 13).map (fun m =>
    |dot3 (distSpecT g lim i J k) (wsList g (m + 1))|
      / dot3 (wsList g (m + 1)) (wsList g (m + 1)))

/-- The claim's selection rule as stated: max over the 13 generator vectors of
|dist(k)·w| / |w|² is at most 0.5 + 0.001, with dist built from offsets[k]·S. -/
def specSelS (g : Geometry) (lim i J k : ℕ) : Prop :=
  npMax (specValsS g lim i J k) ≤ 1 / 2 + 1 / 1000

/-- The amended selection rule: the same test with dist built from
offsets[k]·Sᵀ. -/
def specSelT (g : Geometry) (lim i J k : ℕ) : Prop :=
  npMax (specValsT g lim i J k) ≤ 1 / 2 + 1 / 1000

instance (g : Geometry) (lim i J k : ℕ) : Decidable (specSelS g lim i J k) := by
  unfold specSelS; infer_instance

instance (g : Geometry) (lim i J k : ℕ) : Decidable (specSelT g lim i J k) := by
  unfold specSelT; infer_instance

/-! ### Concrete inputs used in counterexamples and witnesses -/

/-- A minimal geometry: one ion of mass 4 at the origin, identity primitive
cell, identity supercell matrix (one cell, origin 0). -/
def G1 : Geometry where
  n_ions := 1
  n_cells_in_sc := 1
  cell_vec := m3 (v3 1 0 0) (v3 0 1 0) (v3 0 0 1)
  sc_matrix := m3 (v3 1 0 0) (v3 0 1 0) (v3 0 0 1)
  ion_r := fun _ => v3 0 0 0
  cell_origins := fun _ => v3 0 0 0
  ion_mass := fun _ => 4

/-- A skew supercell: identity primitive cell, sc_matrix = [[2,1,0],[0,1,0],
[0,0,1]] (determinant 2), one ion at the origin, cell origins (0,0,0) and
(1,0,0). -/
def G0 : Geometry where
  n_ions := 1
  n_cells_in_sc := 2
  cell_vec := m3 (v3 1 0 0) (v3 0 1 0) (v3 0 0 1)
  sc_matrix := m3 (v3 2 1 0) (v3 0 1 0) (v3 0 0 1)
  ion_r := fun _ => v3 0 0 0
  cell_origins := fun c => if c = 1 then v3 1 0 0 else v3 0 0 0
  ion_mass := fun _ => 1

/-- The Γ point q = (0, 0, 0). -/
def q0 : Vec3 ℝ := fun _ => 0

/-- Force constants with a single nonzero entry FC[0, 0, 0] = 1. -/
def fc1 : ℕ → ℕ → ℕ → ℚ := fun c r s => if c = 0 ∧ r = 0 ∧ s = 0 then 1 else 0

/-- Force constants with a single nonzero off-diagonal entry FC[0, 0, 1] = 1
(not symmetric, so the assembled dynamical matrix is not Hermitian). -/
def fc2 : ℕ → ℕ → ℕ → ℚ := fun c r s => if c = 0 ∧ r = 0 ∧ s = 1 then 1 else 0

/-- A fresh object before any interpolation was run. -/
def obj0 : PhononObj where
  qpts := []
  n_qpts := 0
  freqs := fun _ _ => none
  eigenvecs := fun _ _ _ _ => 0
  sc_images := none

/-- A solver that always reports a diagonalization failure. -/
def failSolver : Solver := fun _ => .error .linAlgError

/-- A solver that always returns eigenvalue -1 for every branch. -/
def negSolver : Solver := fun _ => .ok { evals := fun _ => (-1 : ℝ), evecs := fun _ _ => 0 }

/-- Raw constructor input with determinant 1, consistent array sizes, and a
negative ion mass. -/
def badRaw : RawData where
  n_ions := 1
  cell_vec := m3 (v3 1 0 0) (v3 0 1 0) (v3 0 0 1)
  ion_mass := [-1]
  sc_matrix := m3 (v3 1 0 0) (v3 0 1 0) (v3 0 0 1)
  fc_data := List.replicate 9 0
  origins_data := [0, 0, 0]

/-! ## Supporting lemmas -/

/-- Multiplying by the inverse on a row vector cancels: u·M⁻¹·(M·C) = u·C.
This is how sc_ion_cart (built through np.linalg.inv(sc_matrix) and then
sc_vecs = sc_matrix·cell_vec) collapses, in exact arithmetic, to the direct
Cartesian position, whenever the supercell matrix is non-singular. -/
lemma vecMul3_inv3_cancel (u : Vec3 ℚ) (M C : Mat3 ℚ) (h : det3 M ≠ 0) (j : ℕ) :
    vecMul3 (vecMul3 u (inv3 M)) (mul3 M C) j = vecMul3 u C j := by
  simp only [vecMul3, mul3, inv3, adj3]
  field_simp
  simp only [det3]
  ring

lemma repList_length (l : List ℤ) (m : ℕ) : (repList l m).length = l.length * m := by
  simp [repList, List.length_flatMap, List.map_const]
  induction l with
  | nil => simp
  | cons a t ih => simp [ih]; ring

lemma tileList_length (l : List ℤ) (m : ℕ) : (tileList l m).length = m * l.length := by
  simp [tileList, List.length_flatten, List.map_replicate, List.sum_replicate]

lemma irangeL_length (lim : ℕ) : (irangeL lim).length = 2 * lim + 1 := by
  unfold irangeL
  rw [List.length_map, List.length_range]

lemma scImageR_length (lim : ℕ) : (scImageR lim).length = (2 * lim + 1) ^ 3 := by
  simp only [scImageR, List.length_map, List.length_zip, repList_length, tileList_length,
    irangeL_length]
  rw [show (2 * lim + 1) * (2 * lim + 1) ^ 2 = (2 * lim + 1) ^ 3 by ring,
    show (2 * lim + 1) * ((2 * lim + 1) * (2 * lim + 1)) = (2 * lim + 1) ^ 3 by ring,
    show (2 * lim + 1) ^ 2 * (2 * lim + 1) = (2 * lim + 1) ^ 3 by ring]
  simp

/-- A fold whose step adds a state-independent amount at each matrix entry
evaluates to the initial entry plus the sum of the amounts. -/
lemma foldl_add_eq {σ : Type} (L : List σ) (step : (ℕ → ℕ → ℂ) → σ → (ℕ → ℕ → ℂ))
    (A : σ → ℕ → ℕ → ℂ) (hstep : ∀ D t r c, step D t r c = D r c + A t r c)
    (D : ℕ → ℕ → ℂ) (r c : ℕ) :
    (L.foldl step D) r c = D r c + (L.map (fun t => A t r c)).sum := by
  induction L generalizing D with
  | nil => simp
  | cons a t ih =>
    simp only [List.foldl_cons, List.map_cons, List.sum_cons]
    rw [ih, hstep]
    ring

lemma dynStep_eq (n : ℕ) (fc : ℕ → ℕ → ℕ → ℚ) (ph : ℕ → ℕ → ℂ) (tbl : ℕ → ℕ → List ℕ)
    (i : ℕ) (D : ℕ → ℕ → ℂ) (scj r c : ℕ) :
    dynStep n fc ph tbl i scj D r c = D r c + contrib n fc ph tbl i scj r c := by
  simp only [dynStep, contrib]
  split <;> simp

/-- Entry (r, c) of the assembled dynamical matrix as a double sum. -/
lemma assembleD_eq_sum (n ncl : ℕ) (fc : ℕ → ℕ → ℕ → ℚ) (ph : ℕ → ℕ → ℂ)
    (tbl : ℕ → ℕ → List ℕ) (r c : ℕ) :
    assembleD n ncl fc ph tbl r c
      = ((List.range n).map (fun i =>
          ((List.range (n * ncl)).map (fun scj => contrib n fc ph tbl i scj r c)).sum)).sum := by
  unfold assembleD
  rw [foldl_add_eq (List.range n) _
    (fun i r c => ((List.range (n * ncl)).map (fun scj => contrib n fc ph tbl i scj r c)).sum)
    (fun D i r c => foldl_add_eq (List.range (n * ncl)) _ (contrib n fc ph tbl i)
      (dynStep_eq n fc ph tbl i) D r c)]
  simp

/-- Summing an indicator-style map over range n collapses to the single index. -/
lemma sum_range_single (n i : ℕ) (hi : i < n) (f : ℕ → ℂ)
    (hf : ∀ t, t < n → t ≠ i → f t = 0) :
    ((List.range n).map f).sum = f i := by
  induction n with
  | zero => omega
  | succ m ih =>
    rw [List.range_succ, List.map_append, List.sum_append]
    by_cases him : i = m
    · subst him
      have : ((List.range i).map f).sum = 0 := by
        apply List.sum_eq_zero
        intro x hx
        simp only [List.mem_map, List.mem_range] at hx
        obtain ⟨t, ht, rfl⟩ := hx
        exact hf t (by omega) (by omega)
      simp [this]
    · have hlt : i < m := by omega
      rw [ih hlt (fun t ht hti => hf t (by omega) hti)]
      have : f m = 0 := hf m (by omega) (fun h => him h.symm)
      simp [this]

/-- Reindexing the inner supercell-atom sum: among scj in range(n·m) only those
with scj % n = j contribute, and they are exactly scj = cdx·n + j. -/
lemma sum_range_mod (n m j : ℕ) (hj : j < n) (F : ℕ → ℂ) :
    ((List.range (n * m)).map (fun s => if s % n = j then F s else 0)).sum
      = ((List.range m).map (fun cdx => F (cdx * n + j))).sum := by
  induction m with
  | zero => simp
  | succ p ih =>
    have hsplit : n * (p + 1) = n * p + n := by ring
    rw [hsplit, List.range_add, List.map_append, List.sum_append, ih,
      List.range_succ, List.map_append, List.sum_append]
    congr 1
    simp only [List.map_map, List.map_singleton, List.sum_singleton, Function.comp_def]
    have hmod : ∀ t, t < n → ((n * p + t) % n) = t := by
      intro t ht
      rw [Nat.mul_add_mod, Nat.mod_eq_of_lt ht]
    rw [sum_range_single n j hj _ ?_]
    · rw [hmod j hj, if_pos rfl, Nat.mul_comm]
    · intro t ht htj
      rw [hmod t ht, if_neg htj]

/-- Closed form for an in-range entry of the assembled dynamical matrix:
D[3i+α, 3j+β] equals the sum over unit cells nc of
(phase sum over stored images of the pair (i, nc·n_ions + j)) ·
force_constants[nc, 3i+α, 3j+β] / n_sc_images[i, nc·n_ions + j]. -/
lemma assembleD_entry (n ncl : ℕ) (fc : ℕ → ℕ → ℕ → ℚ) (ph : ℕ → ℕ → ℂ)
    (tbl : ℕ → ℕ → List ℕ) (i j α β : ℕ)
    (hi : i < n) (hj : j < n) (hα : α < 3) (hβ : β < 3) :
    assembleD n ncl fc ph tbl (3 * i + α) (3 * j + β)
      = ((List.range ncl).map (fun nc =>
          ((tbl i (nc * n + j)).map (ph nc)).sum * (fc nc (3 * i + α) (3 * j + β) : ℂ)
            / ((tbl i (nc * n + j)).length : ℂ))).sum := by
  rw [assembleD_eq_sum]
  rw [sum_range_single n i hi _ ?side]
  case side =>
    intro t ht hti
    apply List.sum_eq_zero
    intro x hx
    simp only [List.mem_map, List.mem_range] at hx
    obtain ⟨scj, _, rfl⟩ := hx
    simp only [contrib]
    rw [if_neg]
    intro hcond
    exact hti (by omega)
  have hcongr : ∀ scj, contrib n fc ph tbl i scj (3 * i + α) (3 * j + β)
      = if scj % n = j then
          ((tbl i scj).map (ph (scj / n))).sum * (fc (scj / n) (3 * i + α) (3 * j + β) : ℂ)
            / ((tbl i scj).length : ℂ)
        else 0 := by
    intro scj
    simp only [contrib]
    by_cases hmod : scj % n = j
    · rw [if_pos hmod, if_pos (by omega)]
    · rw [if_neg hmod, if_neg]
      intro hcond
      have hlt : scj % n < n := Nat.mod_lt _ (by omega)
      exact hmod (by omega)
  calc ((List.range (n * ncl)).map
          (fun scj => contrib n fc ph tbl i scj (3 * i + α) (3 * j + β))).sum
      = ((List.range (n * ncl)).map (fun scj => if scj % n = j then
          ((tbl i scj).map (ph (scj / n))).sum * (fc (scj / n) (3 * i + α) (3 * j + β) : ℂ)
            / ((tbl i scj).length : ℂ) else 0)).sum := by
        exact congrArg List.sum (List.map_congr_left (fun scj _ => hcongr scj))
    _ = _ := by
        rw [sum_range_mod n ncl j hj]
        apply congrArg List.sum
        apply List.map_congr_left
        intro nc _
        have h1 : (nc * n + j) / n = nc := by
          rw [Nat.mul_comm nc n, Nat.mul_add_div (by omega : 0 < n), Nat.div_eq_of_lt hj]
          omega
        rw [h1]

lemma npMax_le_iff (l : List ℚ) (b : ℚ) :
    npMax l ≤ b ↔ 0 ≤ b ∧ ∀ v ∈ l, v ≤ b := by
  induction l with
  | nil => simp [npMax]
  | cons a t ih =>
    simp only [npMax, List.foldr_cons, max_le_iff, List.mem_cons] at *
    constructor
    · rintro ⟨ha, ht⟩
      have := ih.mp ht
      exact ⟨this.1, fun v hv => hv.elim (fun h => h ▸ ha) (this.2 v)⟩
    · rintro ⟨hb, hall⟩
      exact ⟨hall a (Or.inl rfl), ih.mpr ⟨hb, fun v hv => hall v (Or.inr hv)⟩⟩

lemma le_npMax_of_mem {l : List ℚ} {v : ℚ} (hv : v ∈ l) : v ≤ npMax l := by
  induction l with
  | nil => simp at hv
  | cons a t ih =>
    simp only [List.mem_cons] at hv
    simp only [npMax, List.foldr_cons]
    rcases hv with rfl | hv
    · exact le_max_left _ _
    · exact le_trans (ih hv) (le_max_right _ _)

/-! ### Evaluation of the image search on G1 -/

lemma distV_G1 (k a : ℕ) (ha : a < 3) :
    distV G1 2 0 0 k a = -(triQ (offsets 2 k) a) := by
  interval_cases a <;>
    simp [distV, scIonCart, scIonR, scImageCart, vecMul3, scVecs, mul3, castM, G1, m3, v3,
      transpose3]

lemma wsVal_G1_z (k : ℕ) :
    |dot3 (wsList G1 (0 + 1)) (distV G1 2 0 0 k) * invWsSq G1 0|
      = |((offsets 2 k).2.2 : ℚ)| := by
  rw [dot3, distV_G1 k 0 (by omega), distV_G1 k 1 (by omega), distV_G1 k 2 (by omega)]
  simp [wsList, vecMul3, wsFrac, v3, scVecs, mul3, castM, G1, m3, invWsSq, dot3, triQ]

lemma wsVal_G1_y (k : ℕ) :
    |dot3 (wsList G1 (1 + 1)) (distV G1 2 0 0 k) * invWsSq G1 1|
      = |((offsets 2 k).2.1 : ℚ)| := by
  rw [dot3, distV_G1 k 0 (by omega), distV_G1 k 1 (by omega), distV_G1 k 2 (by omega)]
  simp [wsList, vecMul3, wsFrac, v3, scVecs, mul3, castM, G1, m3, invWsSq, dot3, triQ]

lemma wsVal_G1_x (k : ℕ) :
    |dot3 (wsList G1 (4 + 1)) (distV G1 2 0 0 k) * invWsSq G1 4|
      = |((offsets 2 k).1 : ℚ)| := by
  rw [dot3, distV_G1 k 0 (by omega), distV_G1 k 1 (by omega), distV_G1 k 2 (by omega)]
  simp [wsList, vecMul3, wsFrac, v3, scVecs, mul3, castM, G1, m3, invWsSq, dot3, triQ]

/-- On the identity geometry the Wigner-Seitz test accepts exactly the zero
offset. -/
lemma codeSel_G1_iff (k : ℕ) : codeSel G1 2 0 0 k ↔ offsets 2 k = (0, 0, 0) := by
  unfold codeSel cutoffScale
  rw [npMax_le_iff]
  constructor
  · rintro ⟨-, hall⟩
    have hmem : ∀ m : ℕ, m < 13 →
        |dot3 (wsList G1 (m + 1)) (distV G1 2 0 0 k) * invWsSq G1 m| ∈ wsVals G1 2 0 0 k := by
      intro m hm
      unfold wsVals
      exact List.mem_map.mpr ⟨m, List.mem_range.mpr hm, rfl⟩
    have hz := hall _ (hmem 0 (by omega))
    have hy := hall _ (hmem 1 (by omega))
    have hx := hall _ (hmem 4 (by omega))
    rw [wsVal_G1_z] at hz
    rw [wsVal_G1_y] at hy
    rw [wsVal_G1_x] at hx
    have bx : (offsets 2 k).1 = 0 := by
      have : |((offsets 2 k).1 : ℚ)| < 1 := by linarith
      rw [← Int.cast_abs] at this
      exact_mod_cast Int.abs_lt_one_iff.mp (by exact_mod_cast this)
    have by' : (offsets 2 k).2.1 = 0 := by
      have : |((offsets 2 k).2.1 : ℚ)| < 1 := by linarith
      rw [← Int.cast_abs] at this
      exact_mod_cast Int.abs_lt_one_iff.mp (by exact_mod_cast this)
    have bz : (offsets 2 k).2.2 = 0 := by
      have : |((offsets 2 k).2.2 : ℚ)| < 1 := by linarith
      rw [← Int.cast_abs] at this
      exact_mod_cast Int.abs_lt_one_iff.mp (by exact_mod_cast this)
    have : offsets 2 k = ((offsets 2 k).1, (offsets 2 k).2.1, (offsets 2 k).2.2) := rfl
    rw [this, bx, by', bz]
  · intro h0
    refine ⟨by norm_num, ?_⟩
    intro v hv
    unfold wsVals at hv
    obtain ⟨m, -, rfl⟩ := List.mem_map.mp hv
    have hdz : ∀ a, a < 3 → distV G1 2 0 0 k a = 0 := by
      intro a ha
      rw [distV_G1 k a ha, h0]
      interval_cases a <;> simp [triQ]
    rw [dot3, hdz 0 (by omega), hdz 1 (by omega), hdz 2 (by omega)]
    norm_num

/-- The image table of G1 contains exactly the central offset, index 62. -/
lemma imageIndices_G1 : imageIndices G1 2 0 0 = [62] := by
  unfold imageIndices
  have hcongr : ∀ k ∈ List.range ((2 * 2 + 1) ^ 3),
      decide (codeSel G1 2 0 0 k) = decide (k = 62) := by
    intro k hk
    have hk125 : k < 125 := by simpa using List.mem_range.mp hk
    have hiff : codeSel G1 2 0 0 k ↔ k = 62 := by
      rw [codeSel_G1_iff k]
      constructor
      · intro h
        have : ∀ k, k < 125 → (offsets 2 k = (0, 0, 0) ↔ k = 62) := by decide
        exact (this k hk125).mp h
      · rintro rfl
        decide
    simp [hiff]
  rw [List.filter_congr hcongr]
  decide

/-! ### Evaluation of the image search on G0 (the skew supercell) -/

lemma offsets_42 : offsets 2 42 = (-1, 1, 0) := by decide

lemma distV_G0_42 (a : ℕ) (ha : a < 3) :
    distV G0 2 0 1 42 a = v3 0 (-1) 0 a := by
  interval_cases a <;>
    norm_num [distV, scIonCart, scIonR, scImageCart, vecMul3, scVecs, mul3, castM, G0, m3, v3,
      transpose3, inv3, adj3, det3, triQ, offsets_42]

/-- Offset index 42 fails the code's test on G0: the generator w = row 2 of
ws_list gives |dist·w|·inv_sq = 1 > 0.501. -/
lemma notCodeSel_G0_42 : ¬ codeSel G0 2 0 1 42 := by
  unfold codeSel cutoffScale
  intro h
  have hval : |dot3 (wsList G0 (1 + 1)) (distV G0 2 0 1 42) * invWsSq G0 1| = 1 := by
    rw [dot3, distV_G0_42 0 (by omega), distV_G0_42 1 (by omega), distV_G0_42 2 (by omega)]
    norm_num [wsList, vecMul3, wsFrac, v3, scVecs, mul3, castM, G0, m3, invWsSq, dot3]
  have hmem : (1 : ℚ) ∈ wsVals G0 2 0 1 42 := by
    unfold wsVals
    exact List.mem_map.mpr ⟨1, List.mem_range.mpr (by omega), hval⟩
  have := le_npMax_of_mem hmem
  linarith

/-- Offset index 42 passes the claim's test (with offsets[k]·S, untransposed)
on G0: the spec-side dist is (1,0,0) and every one of the 13 ratios is at most
1/2. -/
lemma specSelS_G0_42 : specSelS G0 2 0 1 42 := by
  unfold specSelS
  rw [npMax_le_iff]
  refine ⟨by norm_num, ?_⟩
  intro v hv
  unfold specValsS at hv
  obtain ⟨m, hm, rfl⟩ := List.mem_map.mp hv
  have hm13 : m < 13 := List.mem_range.mp hm
  interval_cases m <;>
    norm_num [distSpecS, specCart, vecMul3, scVecs, mul3, castM, G0, m3, v3, triQ, offsets_42,
      wsList, wsFrac, dot3]

/-! ### The selection test rewritten to the spec's shape (under a
non-singular supercell matrix) -/

lemma dot3_comm (a b : Vec3 ℚ) : dot3 a b = dot3 b a := by
  unfold dot3; ring

lemma scIonCart_eq_specCart (g : Geometry) (hdet : det3 (castM g.sc_matrix) ≠ 0) (J a : ℕ) :
    scIonCart g J a = specCart g J a := by
  exact vecMul3_inv3_cancel _ _ g.cell_vec hdet a

lemma dot3_self_nonneg (w : Vec3 ℚ) : 0 ≤ dot3 w w := by
  unfold dot3
  have h0 := mul_self_nonneg (w 0)
  have h1 := mul_self_nonneg (w 1)
  have h2 := mul_self_nonneg (w 2)
  linarith

lemma wsVals_eq_specValsT (g : Geometry) (hdet : det3 (castM g.sc_matrix) ≠ 0)
    (lim i J k : ℕ) : wsVals g lim i J k = specValsT g lim i J k := by
  unfold wsVals specValsT
  apply List.map_congr_left
  intro m _
  have hdist : distV g lim i J k = distSpecT g lim i J k := by
    funext a
    unfold distV distSpecT scImageCart
    rw [scIonCart_eq_specCart g hdet i a, scIonCart_eq_specCart g hdet J a]
  have hnn : 0 ≤ invWsSq g m := by
    unfold invWsSq
    have := dot3_self_nonneg (wsList g (m + 1))
    positivity
  rw [hdist, abs_mul, abs_of_nonneg hnn,
    dot3_comm (wsList g (m + 1)) (distSpecT g lim i J k), invWsSq, mul_one_div]

lemma codeSel_iff_specSelT (g : Geometry) (hdet : det3 (castM g.sc_matrix) ≠ 0)
    (lim i J k : ℕ) : codeSel g lim i J k ↔ specSelT g lim i J k := by
  unfold codeSel specSelT cutoffScale
  rw [wsVals_eq_specValsT g hdet]
  norm_num

/-! ### Evaluation of phases and dynamical-matrix entries at Γ -/

lemma phasesFor_q0 (g : Geometry) (lim nc k : ℕ) : phasesFor g lim q0 nc k = 1 := by
  unfold phasesFor qdot q0
  norm_num

lemma dynMatPassed_G1 (fc : ℕ → ℕ → ℕ → ℚ) (α β : ℕ) (hα : α < 3) (hβ : β < 3) :
    dynMatPassed G1 fc (imageIndices G1 2) q0 α β = (fc 0 α β : ℂ) := by
  have h := assembleD_entry 1 1 fc (phasesFor G1 2 q0) (imageIndices G1 2) 0 0 α β
    (by omega) (by omega) hα hβ
  simp only [Nat.mul_zero, Nat.zero_add, Nat.zero_mul, Nat.mul_one] at h
  unfold dynMatPassed
  show assembleD G1.n_ions G1.n_cells_in_sc fc (phasesFor G1 2 q0) (imageIndices G1 2) α β
    = (fc 0 α β : ℂ)
  have hn : G1.n_ions = 1 := rfl
  have hc : G1.n_cells_in_sc = 1 := rfl
  rw [hn, hc]
  rw [show α = 3 * 0 + α by omega, show β = 3 * 0 + β by omega] at h ⊢
  rw [h]
  rw [show List.range 1 = [0] from rfl]
  simp [imageIndices_G1, phasesFor_q0]

lemma ensureImages_fields (g : Geometry) (obj : PhononObj) :
    (ensureImages g obj).qpts = obj.qpts ∧ (ensureImages g obj).n_qpts = obj.n_qpts
      ∧ (ensureImages g obj).freqs = obj.freqs
      ∧ (ensureImages g obj).eigenvecs = obj.eigenvecs := by
  unfold ensureImages
  rcases obj.sc_images with _ | t <;> simp

lemma sum_map_flatten_replicate (m : ℕ) (l : List ℕ) (f : ℕ → ℂ) :
    (((List.replicate m l).flatten).map f).sum = m • ((l.map f).sum) := by
  induction m with
  | zero => simp
  | succ p ih =>
    rw [List.replicate_succ, List.flatten_cons, List.map_append, List.sum_append, ih,
      succ_nsmul]
    ring

lemma length_flatten_replicate (m : ℕ) (l : List ℕ) :
    ((List.replicate m l).flatten).length = m * l.length := by
  rw [List.length_flatten, List.map_replicate, List.sum_replicate, smul_eq_mul]

/-! ## Claim theorems -/

/-- C1: for every q-point, every primitive atom i and every primitive atom j,
the 3×3 block of the assembled dynamical matrix at (3i+α, 3j+β) is exactly the
sum over supercell atoms J = nc·n_ions + j of term · FC[nc, 3i+α, 3j+β] /
counts[i, J], where term is the sum of phase[nc, k] over exactly the selected
image indices of the pair (i, J); no other contributions enter D. -/
theorem c1_dynmat_accumulation (g : Geometry) (fc : ℕ → ℕ → ℕ → ℚ) (q : Vec3 ℝ)
    (i j α β : ℕ) (hi : i < g.n_ions) (hj : j < g.n_ions) (hα : α < 3) (hβ : β < 3) :
    dynMatPassed g fc (imageIndices g 2) q (3 * i + α) (3 * j + β)
      = ((List.range g.n_cells_in_sc).map (fun nc =>
          ((imageIndices g 2 i (nc * g.n_ions + j)).map (phasesFor g 2 q nc)).sum
            * (fc nc (3 * i + α) (3 * j + β) : ℂ)
            / (countsOf g 2 i (nc * g.n_ions + j) : ℂ))).sum := by
  unfold dynMatPassed countsOf
  exact assembleD_entry _ _ _ _ _ i j α β hi hj hα hβ

/-- Witness for C1 at the concrete geometry G1 and i = j = α = β = 0. -/
theorem c1_dynmat_accumulation_witness :
    (0 < G1.n_ions ∧ 0 < 3)
      ∧ dynMatPassed G1 fc1 (imageIndices G1 2) q0 (3 * 0 + 0) (3 * 0 + 0)
        = ((List.range G1.n_cells_in_sc).map (fun nc =>
            ((imageIndices G1 2 0 (nc * G1.n_ions + 0)).map (phasesFor G1 2 q0 nc)).sum
              * (fc1 nc (3 * 0 + 0) (3 * 0 + 0) : ℂ)
              / (countsOf G1 2 0 (nc * G1.n_ions + 0) : ℂ))).sum :=
  ⟨⟨by decide, by decide⟩,
    c1_dynmat_accumulation G1 fc1 q0 0 0 0 0 (by decide) (by decide) (by decide) (by decide)⟩

/-- C2 counterexample: on the skew supercell G0 (sc_matrix = [[2,1,0],[0,1,0],
[0,0,1]]), offset index 42 (offset (-1,1,0)) satisfies the claim's selection
rule (dist built from offsets[k]·S) but is not selected by the code (which
uses offsets[k]·Sᵀ), so the claimed equivalence is false at (i, J, k) =
(0, 1, 42). -/
theorem c2_selection_counterexample :
    specSelS G0 2 0 1 42 ∧ 42 ∉ imageIndices G0 2 0 1 := by
  refine ⟨specSelS_G0_42, ?_⟩
  intro hmem
  rw [imageIndices, List.mem_filter] at hmem
  exact notCodeSel_G0_42 (of_decide_eq_true hmem.2)

/-- C2 (amended): with a non-singular supercell matrix, image k is selected
iff the max over the 13 generator vectors w of |dist(k)·w| / |w|² is at most
0.5 + 0.001, where dist(k) = cart(i) - cart(J) - offsets[k]·Sᵀ (the transpose
of the claimed product); selected indices appear in increasing enumeration
order and counts[i, J] is the number of k in 0..(2·lim+1)³ passing the test. -/
theorem c2_selection_amended (g : Geometry) (lim i J k : ℕ)
    (hdet : det3 (castM g.sc_matrix) ≠ 0) (hk : k < (2 * lim + 1) ^ 3) :
    (k ∈ imageIndices g lim i J ↔ specSelT g lim i J k)
      ∧ List.Pairwise (· < ·) (imageIndices g lim i J)
      ∧ countsOf g lim i J
          = ((List.range ((2 * lim + 1) ^ 3)).filter
              (fun t => decide (specSelT g lim i J t))).length := by
  refine ⟨?_, ?_, ?_⟩
  · rw [imageIndices, List.mem_filter, List.mem_range]
    simp [hk, codeSel_iff_specSelT g hdet]
  · exact List.Pairwise.sublist (List.filter_sublist _) (List.pairwise_lt_range _)
  · unfold countsOf imageIndices
    congr 1
    apply List.filter_congr
    intro t _
    simp [codeSel_iff_specSelT g hdet]

/-- Witness for the amended C2 at the concrete geometry G0 and k = 42. -/
theorem c2_selection_amended_witness :
    det3 (castM G0.sc_matrix) ≠ 0 ∧ 42 < (2 * 2 + 1) ^ 3
      ∧ ((42 ∈ imageIndices G0 2 0 1 ↔ specSelT G0 2 0 1 42)
        ∧ List.Pairwise (· < ·) (imageIndices G0 2 0 1)
        ∧ countsOf G0 2 0 1
            = ((List.range ((2 * 2 + 1) ^ 3)).filter
                (fun t => decide (specSelT G0 2 0 1 t))).length) := by
  have hdet : det3 (castM G0.sc_matrix) ≠ 0 := by
    norm_num [det3, castM, G0, m3, v3]
  exact ⟨hdet, by norm_num, c2_selection_amended G0 2 0 1 42 hdet (by norm_num)⟩

/-- C3 (code bug): the matrix handed to np.linalg.eigh is not mass-weighted.
On G1 (one ion of mass 4, FC[0,0,0] = 1, q = Γ) the code passes D[0,0] = 1,
whereas the claimed mass weighting would give 1 / sqrt(m₀·m₀) = 1/4 ≠ 1. -/
theorem c3_no_mass_weighting :
    dynMatPassed G1 fc1 (imageIndices G1 2) q0 0 0 = 1
      ∧ G1.ion_mass 0 = 4
      ∧ (1 : ℂ) ≠ 1 / ((Real.sqrt ((4 : ℝ) * 4) : ℝ) : ℂ) := by
  refine ⟨?_, rfl, ?_⟩
  · rw [show (0 : ℕ) = 3 * 0 + 0 from rfl]
    rw [dynMatPassed_G1 fc1 0 0 (by omega) (by omega)]
    simp [fc1]
  · rw [Real.sqrt_mul_self (by norm_num : (0 : ℝ) ≤ 4)]
    rw [show (((4 : ℝ) : ℂ)) = (4 : ℂ) by norm_num]
    norm_num

/-- C4 (code bug): frequencies are stored as np.sqrt(eigenvalue), which is NaN
(modelled as none) for a negative eigenvalue; with a solver returning
eigenvalue -1 the stored frequency is none, not the finite negative value
sign(-1)·sqrt(|-1|) = -1 that the claim requires. -/
theorem c4_negative_eigenvalue_nan :
    (runCalc negSolver G1 fc1 obj0 [q0]).1.freqs 0 0 = none
      ∧ specFreq (-1) = -1
      ∧ (runCalc negSolver G1 fc1 obj0 [q0]).1.freqs 0 0 ≠ some (specFreq (-1)) := by
  have h1 : (runCalc negSolver G1 fc1 obj0 [q0]).1.freqs 0 0 = none := by
    show npSqrt (-1) = none
    unfold npSqrt
    norm_num
  have h2 : specFreq (-1) = -1 := by
    unfold specFreq
    rw [abs_neg, abs_one, Real.sqrt_one, Real.sign_of_neg (by norm_num : (-1 : ℝ) < 0)]
    norm_num
  exact ⟨h1, h2, by rw [h1]; simp⟩

/-- C5: for every q-point the phase table satisfies
phase[nc, k] = exp(2πi · q·(sc_matrixᵀ·offsets[k] + cell_origins[nc])) for
every cell nc and every offset index k, and the offset list is exactly the
(2·lim+1)³ integer triplets over [-lim, lim]³ in row-major lexical order. -/
theorem c5_phase_table (g : Geometry) (q : Vec3 ℝ) (nc : ℕ) (k : Fin 125) :
    phasesFor g 2 q nc k
        = Complex.exp (2 * (Real.pi : ℂ) * Complex.I * ((qdot q (cellR g 2 nc k) : ℝ) : ℂ))
      ∧ scImageR 2 = lexTriples 2 := by
  constructor
  · unfold phasesFor
    rw [Complex.ofReal_cos, Complex.ofReal_sin, ← Complex.exp_mul_I]
    congr 1
    push_cast
    ring
  · decide

/-- C6 counterexample: with the asymmetric force constants fc2 on G1 the
assembled matrix has D[0,1] = 1 but D[1,0] = 0, so the matrix passed to the
solver is not equal to its Hermitian symmetrization (D + D†)/2: the claim that
the passed matrix is exactly Hermitian-symmetrized is false. -/
theorem c6_symmetrization_counterexample :
    dynMatPassed G1 fc2 (imageIndices G1 2) q0 0 1
      ≠ (dynMatPassed G1 fc2 (imageIndices G1 2) q0 0 1
          + (starRingEnd ℂ) (dynMatPassed G1 fc2 (imageIndices G1 2) q0 1 0)) / 2 := by
  have h01 : dynMatPassed G1 fc2 (imageIndices G1 2) q0 0 1 = 1 := by
    rw [show (0 : ℕ) = 3 * 0 + 0 from rfl, show (1 : ℕ) = 3 * 0 + 1 from rfl]
    rw [dynMatPassed_G1 fc2 0 1 (by omega) (by omega)]
    simp [fc2]
  have h10 : dynMatPassed G1 fc2 (imageIndices G1 2) q0 1 0 = 0 := by
    rw [show (0 : ℕ) = 3 * 0 + 0 from rfl, show (1 : ℕ) = 3 * 0 + 1 from rfl]
    rw [dynMatPassed_G1 fc2 1 0 (by omega) (by omega)]
    simp [fc2]
  rw [h01, h10]
  norm_num

/-- C6 (amended): the matrix handed to np.linalg.eigh is the assembled
dynamical matrix itself — no (D + D†)/2 replacement is applied — and that
matrix is not Hermitian in general (witnessed on G1 with fc2). -/
theorem c6_no_symmetrization :
    (∀ (g : Geometry) (fc : ℕ → ℕ → ℕ → ℚ) (tbl : ℕ → ℕ → List ℕ) (q : Vec3 ℝ),
        dynMatPassed g fc tbl q
          = assembleD g.n_ions g.n_cells_in_sc fc (phasesFor g 2 q) tbl)
      ∧ dynMatPassed G1 fc2 (imageIndices G1 2) q0 0 1
          ≠ (starRingEnd ℂ) (dynMatPassed G1 fc2 (imageIndices G1 2) q0 1 0) := by
  constructor
  · intro g fc tbl q
    rfl
  · have h01 : dynMatPassed G1 fc2 (imageIndices G1 2) q0 0 1 = 1 := by
      rw [show (0 : ℕ) = 3 * 0 + 0 from rfl, show (1 : ℕ) = 3 * 0 + 1 from rfl]
      rw [dynMatPassed_G1 fc2 0 1 (by omega) (by omega)]
      simp [fc2]
    have h10 : dynMatPassed G1 fc2 (imageIndices G1 2) q0 1 0 = 0 := by
      rw [show (0 : ℕ) = 3 * 0 + 0 from rfl, show (1 : ℕ) = 3 * 0 + 1 from rfl]
      rw [dynMatPassed_G1 fc2 1 0 (by omega) (by omega)]
      simp [fc2]
    rw [h01, h10]
    norm_num

/-- C7 counterexample: an input with a negative ion mass (and consistent array
sizes) is accepted by the constructor — no GeometryInvalid-style error is
raised, contradicting the claimed fail-fast validation. -/
theorem c7_validation_counterexample :
    (construct badRaw).isOk = true ∧ (-1 : ℚ) ∈ badRaw.ion_mass ∧ ¬ (0 < (-1 : ℚ)) := by
  refine ⟨?_, ?_, by norm_num⟩
  · decide
  · simp [badRaw]

/-- C7 (amended): the constructor performs no validation of the supercell
determinant or the masses; construction succeeds exactly when the flat
force-constant and cell-origin arrays match the reshape sizes implied by
n_cells_in_sc = |det(sc_matrix)| (a mismatch surfaces as an unstructured
numpy reshape error, not a structured GeometryInvalid). -/
theorem c7_no_validation (d : RawData) :
    (construct d).isOk = true
      ↔ (d.fc_data.length
            = (det3Int d.sc_matrix).natAbs * (3 * d.n_ions) * (3 * d.n_ions)
          ∧ d.origins_data.length = (det3Int d.sc_matrix).natAbs * 3) := by
  unfold construct nCellsOf
  split_ifs with h1 h2
  · simp [h1, h2, Except.isOk, Except.toBool]
  · simp [h1, h2, Except.isOk, Except.toBool]
  · simp [h1, Except.isOk, Except.toBool]

/-- C8: if diagonalization fails at any q-point, the whole call fails (an
error is reported, no partial results are returned) and the stored result
fields qpts, n_qpts, freqs and eigenvecs keep exactly their prior values. -/
theorem c8_failure_atomicity (solver : Solver) (g : Geometry) (fc : ℕ → ℕ → ℕ → ℚ)
    (obj : PhononObj) (qpts : List (Vec3 ℝ)) (e : SolverErr)
    (hfail : (runCalc solver g fc obj qpts).2 = some e) :
    (runCalc solver g fc obj qpts).1.qpts = obj.qpts
      ∧ (runCalc solver g fc obj qpts).1.n_qpts = obj.n_qpts
      ∧ (runCalc solver g fc obj qpts).1.freqs = obj.freqs
      ∧ (runCalc solver g fc obj qpts).1.eigenvecs = obj.eigenvecs := by
  unfold runCalc at hfail ⊢
  rcases hc : computeAll solver g fc
      ((ensureImages g obj).sc_images.getD (imageIndices g 2)) qpts with e' | rs
  · simp only [hc]
    exact ensureImages_fields g obj
  · rw [hc] at hfail
    simp at hfail

/-- Witness for C8: a concrete failed call (failing solver on one q-point)
leaves all four stored result fields of obj0 untouched. -/
theorem c8_failure_atomicity_witness :
    (runCalc failSolver G1 fc1 obj0 [q0]).2 = some SolverErr.linAlgError
      ∧ (runCalc failSolver G1 fc1 obj0 [q0]).1.qpts = obj0.qpts
      ∧ (runCalc failSolver G1 fc1 obj0 [q0]).1.n_qpts = obj0.n_qpts
      ∧ (runCalc failSolver G1 fc1 obj0 [q0]).1.freqs = obj0.freqs
      ∧ (runCalc failSolver G1 fc1 obj0 [q0]).1.eigenvecs = obj0.eigenvecs := by
  have hfail : (runCalc failSolver G1 fc1 obj0 [q0]).2 = some SolverErr.linAlgError := rfl
  obtain ⟨h1, h2, h3, h4⟩ :=
    c8_failure_atomicity failSolver G1 fc1 obj0 [q0] SolverErr.linAlgError hfail
  exact ⟨hfail, h1, h2, h3, h4⟩

/-- C9: replacing every image list by the same list repeated m times (m > 0) —
which multiplies every count by m — leaves every entry of the assembled
dynamical matrix unchanged, in exact arithmetic. -/
theorem c9_cumulant_invariance (n ncl : ℕ) (fc : ℕ → ℕ → ℕ → ℚ) (ph : ℕ → ℕ → ℂ)
    (tbl : ℕ → ℕ → List ℕ) (m : ℕ) (hm : 0 < m) :
    (∀ i J, ((List.replicate m (tbl i J)).flatten).length = m * (tbl i J).length)
      ∧ ∀ r c, assembleD n ncl fc ph (fun i J => (List.replicate m (tbl i J)).flatten) r c
          = assembleD n ncl fc ph tbl r c := by
  refine ⟨fun i J => length_flatten_replicate m (tbl i J), ?_⟩
  intro r c
  rw [assembleD_eq_sum, assembleD_eq_sum]
  apply congrArg List.sum
  apply List.map_congr_left
  intro i _
  apply congrArg List.sum
  apply List.map_congr_left
  intro scj _
  unfold contrib
  split
  · rw [sum_map_flatten_replicate, length_flatten_replicate]
    rcases Nat.eq_zero_or_pos (tbl i scj).length with hz | hpos
    · rw [List.length_eq_zero.mp hz]
      simp
    · have hmC : ((m : ℕ) : ℂ) ≠ 0 := Nat.cast_ne_zero.mpr (by omega)
      have hlC : (((tbl i scj).length : ℕ) : ℂ) ≠ 0 := Nat.cast_ne_zero.mpr (by omega)
      rw [nsmul_eq_mul]
      push_cast
      field_simp
      ring
  · rfl

/-- Witness for C9 with m = 2 on a concrete one-entry table. -/
theorem c9_cumulant_invariance_witness :
    0 < 2
      ∧ ((List.replicate 2 ((fun _ _ => [62]) 0 0 : List ℕ)).flatten).length
          = 2 * (((fun _ _ => [62]) 0 0 : List ℕ)).length
      ∧ assembleD 1 1 fc1 (fun _ _ => 1)
            (fun i J => (List.replicate 2 ((fun _ _ => [62]) i J : List ℕ)).flatten) 0 0
          = assembleD 1 1 fc1 (fun _ _ => 1) (fun _ _ => [62]) 0 0 := by
  have h := c9_cumulant_invariance 1 1 fc1 (fun _ _ => 1) (fun _ _ => [62]) 2 (by norm_num)
  exact ⟨by norm_num, h.1 0 0, h.2 0 0⟩

/-- C10: for every geometry and pair (i, J) at the hard-coded radius lim = 2,
the per-pair count is at most 125 and every stored image index is at most 124;
both survive int8 storage unchanged (no wrap-around). -/
theorem c10_int8_no_wrap (g : Geometry) (i J : ℕ) :
    countsOf g 2 i J ≤ 125
      ∧ int8wrap (countsOf g 2 i J : ℤ) = (countsOf g 2 i J : ℤ)
      ∧ ∀ k, k ∈ imageIndices g 2 i J → k ≤ 124 ∧ int8wrap (k : ℤ) = (k : ℤ) := by
  have hlen : countsOf g 2 i J ≤ 125 := by
    unfold countsOf imageIndices
    calc (List.filter _ (List.range ((2 * 2 + 1) ^ 3))).length
        ≤ (List.range ((2 * 2 + 1) ^ 3)).length := List.length_filter_le _ _
      _ = 125 := by rw [List.length_range]; norm_num
  refine ⟨hlen, ?_, ?_⟩
  · unfold int8wrap
    omega
  · intro k hk
    have hk125 : k < 125 := by
      rw [imageIndices, List.mem_filter, List.mem_range] at hk
      have := hk.1
      omega
    refine ⟨by omega, ?_⟩
    unfold int8wrap
    omega

/-- Witness for C10: index 62 is stored for the pair (0,0) on G1 and both the
index and the count survive int8 storage. -/
theorem c10_int8_no_wrap_witness :
    62 ∈ imageIndices G1 2 0 0
      ∧ 62 ≤ 124 ∧ int8wrap (62 : ℤ) = (62 : ℤ)
      ∧ countsOf G1 2 0 0 ≤ 125 := by
  have hmem : 62 ∈ imageIndices G1 2 0 0 := by
    rw [imageIndices_G1]
    exact List.mem_singleton.mpr rfl
  obtain ⟨h1, _, h3⟩ := c10_int8_no_wrap G1 0 0
  exact ⟨hmem, (h3 62 hmem).1, (h3 62 hmem).2, h1⟩

end Interp
